import Mathlib

/-!
# Verification of the import-graph analyzer (`app.py`)

Shallow embedding of the core of the analyzer: textual import extraction
(`parse_imports`), construction of the directed import graph
(`build_import_graph`), critical-node detection (`identify_critical_nodes`),
single-cycle detection (`identify_circular_dependencies`) and the textual
insight summary (`draw_insights`).

Modelling conventions:
* A source file is modelled as its base name together with the list of its
  lines, as produced by reading the file (`readlines`); trailing newlines are
  immaterial because every line is stripped before inspection.
* The directory walk is modelled by the list of `(basename, lines)` pairs it
  yields, in walk order.
* The graph library object (`networkx.DiGraph`) is modelled by a record of the
  node list and the edge list in insertion order; `add_edge` inserts missing
  endpoints and skips duplicate edges, as the library does for a simple
  directed graph.
* `nx.find_cycle(graph, orientation='original')` is an external library call;
  it is modelled from the spec by a depth-first search returning the edge list
  of one cycle, or nothing when the graph is acyclic (the library raises
  `NetworkXNoCycle`, modelled as `Option.none`).
-/

/-- Whitespace characters recognised by Python's `str.strip()` / `str.split()`
(ASCII subset; source lines are code text). -/
def isPyWs (c : Char) : Bool :=
  c = ' ' || c = '\t' || c = '\n' || c = '\r' || c = '\x0b' || c = '\x0c'

/-- Python `str.strip()`: remove leading and trailing whitespace. -/
def pyStrip (s : String) : String :=
  (((s.toList.dropWhile isPyWs).reverse.dropWhile isPyWs).reverse).asString

/-- Python `str.startswith(pre)`. -/
def pyStartsWith (s pre : String) : Bool :=
  pre.toList.isPrefixOf s.toList

/-- Python `str.endswith(suf)`. -/
def pyEndsWith (s suf : String) : Bool :=
  suf.toList.isSuffixOf s.toList

/-- Worker for `pySplit`: splits on whitespace runs, discarding empty pieces;
`acc` holds the current token's characters in reverse. -/
def splitWsAux : List Char → List Char → List String
  | [], [] => []
  | [], acc => [acc.reverse.asString]
  | c :: cs, acc =>
      if isPyWs c then
        match acc with
        | [] => splitWsAux cs []
        | _ :: _ => acc.reverse.asString :: splitWsAux cs []
      else splitWsAux cs (c :: acc)

/-- Python `str.split()` with no separator: split on runs of whitespace,
no empty tokens. -/
def pySplit (s : String) : List String :=
  splitWsAux s.toList []

/-- Python `sep.join(xs)`. -/
def joinSep (sep : String) : List String → String
  | [] => ""
  | [x] => x
  | x :: y :: rest => x ++ sep ++ joinSep sep (y :: rest)

/-- The loop of `parse_imports` (`app.py` lines 14-23): `acc` is the `imports`
list accumulated so far; each line is stripped, then matched against the
`"import "` and `"from "` prefixes. -/
def parseImportsAux : List String → List String → List String
  | acc, [] => acc
  | acc, line :: rest =>
      let l := pyStrip line
      if pyStartsWith l "import " then
        let parts := pySplit l
        if 1 < parts.length then
          parseImportsAux (acc ++ [parts[1]!]) rest
        else
          parseImportsAux acc rest
      else if pyStartsWith l "from " then
        let parts := pySplit l
        if 3 < parts.length ∧ parts[2]! = "import" then
          parseImportsAux (acc ++ [parts[1]! ++ "." ++ parts[3]!]) rest
        else
          parseImportsAux acc rest
      else
        parseImportsAux acc rest

/-- `parse_imports` (`app.py` lines 10-24), applied to the lines read from the
file: returns the ordered list of extracted import names. -/
def parse_imports (lines : List String) : List String :=
  parseImportsAux [] lines

/-- Spec-side description of what one line contributes (`spec.md` §4.1): after
trimming, an `"import "`-prefixed line with ≥2 whitespace tokens contributes
its second token; a `"from "`-prefixed line with ≥4 tokens whose third token is
`"import"` contributes `"<token2>.<token4>"`; every other line contributes
nothing. -/
def specExtractLine (line : String) : List String :=
  let l := pyStrip line
  if pyStartsWith l "import " then
    let parts := pySplit l
    if 1 < parts.length then [parts[1]!] else []
  else if pyStartsWith l "from " then
    let parts := pySplit l
    if 3 < parts.length ∧ parts[2]! = "import" then
      [parts[1]! ++ "." ++ parts[3]!]
    else []
  else []

/-- The directed graph object (`networkx.DiGraph`): node list and edge list,
each kept in insertion order without duplicates. -/
structure NxGraph where
  nodes : List String
  edges : List (String × String)
deriving Repr, DecidableEq

/-- The fresh graph `nx.DiGraph()` (`app.py` line 27). -/
def freshGraph : NxGraph := ⟨[], []⟩

/-- Node insertion as performed by the graph library: append the node if it is
not already present. -/
def addNode (g : NxGraph) (n : String) : NxGraph :=
  if n ∈ g.nodes then g else { g with nodes := g.nodes ++ [n] }

/-- `graph.add_edge(u, v)` on a simple directed graph: insert the missing
endpoints (`u` first), then the edge unless it is already present. -/
def addEdge (g : NxGraph) (u v : String) : NxGraph :=
  let g2 := addNode (addNode g u) v
  if (u, v) ∈ g2.edges then g2 else { g2 with edges := g2.edges ++ [(u, v)] }

/-- The inner loop of `build_import_graph` (`app.py` lines 34-35): one edge
from the file to each extracted import name. -/
def addImports : NxGraph → String → List String → NxGraph
  | g, _, [] => g
  | g, file, imp :: rest => addImports (addEdge g file imp) file rest

/-- The walk loop of `build_import_graph` (`app.py` lines 29-35) over the
`(basename, lines)` pairs produced by the directory walk, threading the
graph. -/
def buildGraphAux : List (String × List String) → NxGraph → NxGraph
  | [], g => g
  | (name, lines) :: rest, g =>
      if pyEndsWith name ".py" then
        buildGraphAux rest (addImports g name (parse_imports lines))
      else
        buildGraphAux rest g

/-- `build_import_graph` (`app.py` lines 26-37): fold the files of the walk
into a fresh directed graph. -/
def build_import_graph (files : List (String × List String)) : NxGraph :=
  buildGraphAux files freshGraph

/-- `graph.in_degree()` at one node of a simple directed graph: the number of
edges pointing at it. -/
def inDeg (g : NxGraph) (n : String) : Nat :=
  (g.edges.filter fun e => decide (e.2 = n)).length

/-- `identify_critical_nodes` (`app.py` lines 39-43): the nodes of in-degree
greater than 1, in node iteration (insertion) order. -/
def identify_critical_nodes (g : NxGraph) : List String :=
  g.nodes.filter fun n => decide (1 < inDeg g n)

/-- First hit of an option-valued function along a list (the `for` loops of
the cycle search: try candidates in order, keep the first success). -/
def firstSome {α β : Type} (f : α → Option β) : List α → Option β
  | [] => none
  | a :: rest =>
      match f a with
      | some b => some b
      | none => firstSome f rest

/-- Modelled from the spec: the depth-first cycle search of the external graph
library (`nx.find_cycle`, "a single arbitrary cycle-search starting point",
spec.md §3).  `path` is the chain of edges walked from the start node to `u`,
`active` the start node followed by the targets of `path`.  Meeting an edge
back into `active` closes a cycle; the prefix of `path` before the re-entered
node is discarded. -/
def dfsCycle (edges : List (String × String)) :
    Nat → List (String × String) → List String → String →
    Option (List (String × String))
  | 0, _, _, _ => none
  | fuel + 1, path, active, u =>
      firstSome
        (fun e =>
          if e.2 ∈ active then
            some ((path ++ [e]).dropWhile fun f => decide (f.1 ≠ e.2))
          else
            dfsCycle edges fuel (path ++ [e]) (active ++ [e.2]) e.2)
        (edges.filter fun e => decide (e.1 = u))

/-- Modelled from the spec: `nx.find_cycle(graph, orientation='original')`
returns the edge list of one cycle, trying each node as a start in node
order; when the graph has no cycle it raises `NetworkXNoCycle`, modelled as
`none`. -/
def findCycle (g : NxGraph) : Option (List (String × String)) :=
  firstSome
    (fun s => dfsCycle g.edges (g.edges.length + 1) [] [s] s)
    g.nodes

/-- `identify_circular_dependencies` (`app.py` lines 45-50): the found cycle's
edge list, or `[]` when the `NetworkXNoCycle` exception is caught. -/
def identify_circular_dependencies (g : NxGraph) : List (String × String) :=
  match findCycle g with
  | some c => c
  | none => []

/-- `draw_insights` (`app.py` lines 52-69) as the list of summary lines that
are joined with newlines. -/
def draw_insights (g : NxGraph) : List String :=
  let critical := identify_critical_nodes g
  let cycles := identify_circular_dependencies g
  ["Insights about the codebase:",
   "Total number of nodes (files and imports): " ++ toString g.nodes.length,
   "Total number of edges (dependencies): " ++ toString g.edges.length,
   "Number of critical nodes (frequently imported): " ++ toString critical.length,
   "Critical nodes: " ++ joinSep ", " critical]
  ++ (if cycles = [] then
        ["No circular dependencies found."]
      else
        ["Number of circular dependencies: " ++ toString cycles.length,
         "Circular dependencies: " ++
           joinSep ", " (cycles.map fun e => e.1 ++ " -> " ++ e.2)])

/-- Executable check that consecutive edges chain: the target of each edge is
the source of the next. -/
def chainOk : List (String × String) → Bool
  | [] => true
  | [_] => true
  | e :: f :: rest => decide (e.2 = f.1) && chainOk (f :: rest)

/-- A non-empty closed walk along edges of `g`: consecutive edges chain
(target of one is source of the next) and the last target returns to the
first source. -/
def IsClosedWalk (g : NxGraph) (es : List (String × String)) : Prop :=
  es ≠ [] ∧
  chainOk es = true ∧
  es.getLast?.map Prod.snd = es.head?.map Prod.fst ∧
  ∀ e ∈ es, e ∈ g.edges

instance (g : NxGraph) (es : List (String × String)) :
    Decidable (IsClosedWalk g es) :=
  inferInstanceAs (Decidable (es ≠ [] ∧
    chainOk es = true ∧
    es.getLast?.map Prod.snd = es.head?.map Prod.fst ∧
    ∀ e ∈ es, e ∈ g.edges))

/-- The concrete three-node cycle graph of the spec: edges exactly A→B, B→C,
C→A. -/
def cycleGraph : NxGraph :=
  ⟨["A", "B", "C"], [("A", "B"), ("B", "C"), ("C", "A")]⟩

/-- The walk loop of `build_import_graph` when file reads can fail: a file's
content is `none` when `open` raises.  The exception is caught nowhere in
`parse_imports` or `build_import_graph` (`app.py` lines 10-37), so the first
failing matched file aborts the whole build; the error value is the failing
file's name. -/
def buildGraphAuxE : List (String × Option (List String)) → NxGraph →
    Except String NxGraph
  | [], g => Except.ok g
  | (name, content) :: rest, g =>
      if pyEndsWith name ".py" then
        match content with
        | none => Except.error name
        | some lines => buildGraphAuxE rest (addImports g name (parse_imports lines))
      else
        buildGraphAuxE rest g

/-- `build_import_graph` over a tree in which reads can fail: either the full
graph, or the uncaught read failure. -/
def buildImportGraphE (files : List (String × Option (List String))) :
    Except String NxGraph :=
  buildGraphAuxE files freshGraph

/-! ## Helper lemmas -/

theorem parseImportsAux_eq (lines : List String) :
    ∀ acc, parseImportsAux acc lines = acc ++ (lines.map specExtractLine).flatten := by
  induction lines with
  | nil => intro acc; simp [parseImportsAux]
  | cons line rest ih =>
      intro acc
      by_cases h1 : pyStartsWith (pyStrip line) "import " = true
      · by_cases h2 : 1 < (pySplit (pyStrip line)).length
        · simp [parseImportsAux, specExtractLine, h1, h2, ih]
        · simp [parseImportsAux, specExtractLine, h1, h2, ih]
      · by_cases h3 : pyStartsWith (pyStrip line) "from " = true
        · by_cases h4 : 3 < (pySplit (pyStrip line)).length ∧
              (pySplit (pyStrip line))[2]! = "import"
          · simp [parseImportsAux, specExtractLine, h1, h3, h4, ih]
          · simp [parseImportsAux, specExtractLine, h1, h3, h4, ih]
        · simp [parseImportsAux, specExtractLine, h1, h3, ih]

theorem addNode_edges (g : NxGraph) (n : String) :
    (addNode g n).edges = g.edges := by
  unfold addNode
  split <;> rfl

theorem mem_addNode_nodes (g : NxGraph) (n m : String) :
    m ∈ (addNode g n).nodes ↔ m ∈ g.nodes ∨ m = n := by
  unfold addNode
  split
  · rename_i h
    constructor
    · exact Or.inl
    · rintro (hm | rfl)
      · exact hm
      · exact h
  · simp

theorem mem_addEdge (g : NxGraph) (u v : String) (e : String × String) :
    e ∈ (addEdge g u v).edges ↔ e ∈ g.edges ∨ e = (u, v) := by
  simp only [addEdge]
  split
  · rename_i h
    rw [addNode_edges, addNode_edges] at h ⊢
    constructor
    · exact Or.inl
    · rintro (hm | rfl)
      · exact hm
      · exact h
  · simp [addNode_edges]

theorem mem_addImports (imps : List String) :
    ∀ (g : NxGraph) (f : String) (e : String × String),
      e ∈ (addImports g f imps).edges ↔
        e ∈ g.edges ∨ (e.1 = f ∧ e.2 ∈ imps) := by
  induction imps with
  | nil => intro g f e; simp [addImports]
  | cons imp rest ih =>
      intro g f e
      simp only [addImports, ih, mem_addEdge, List.mem_cons, Prod.ext_iff]
      tauto

theorem mem_buildGraphAux (files : List (String × List String)) :
    ∀ (g : NxGraph) (e : String × String),
      e ∈ (buildGraphAux files g).edges ↔
        e ∈ g.edges ∨ ∃ p ∈ files, pyEndsWith p.1 ".py" = true ∧
          e.1 = p.1 ∧ e.2 ∈ parse_imports p.2 := by
  induction files with
  | nil => intro g e; simp [buildGraphAux]
  | cons f rest ih =>
      intro g e
      obtain ⟨name, lines⟩ := f
      by_cases h : pyEndsWith name ".py" = true
      · simp only [buildGraphAux, h, if_pos, ih, mem_addImports, List.mem_cons]
        constructor
        · rintro ((hg | ⟨h1, h2⟩) | ⟨p, hp, hpy, h1, h2⟩)
          · exact Or.inl hg
          · exact Or.inr ⟨(name, lines), Or.inl rfl, h, h1, h2⟩
          · exact Or.inr ⟨p, Or.inr hp, hpy, h1, h2⟩
        · rintro (hg | ⟨p, hp | hp, hpy, h1, h2⟩)
          · exact Or.inl (Or.inl hg)
          · subst hp
            exact Or.inl (Or.inr ⟨h1, h2⟩)
          · exact Or.inr ⟨p, hp, hpy, h1, h2⟩
      · simp only [buildGraphAux, h, if_neg, ih, List.mem_cons, Bool.not_eq_true]
        constructor
        · rintro (hg | ⟨p, hp, hpy, h1, h2⟩)
          · exact Or.inl hg
          · exact Or.inr ⟨p, Or.inr hp, hpy, h1, h2⟩
        · rintro (hg | ⟨p, hp | hp, hpy, h1, h2⟩)
          · exact Or.inl hg
          · subst hp
            exact absurd hpy h
          · exact Or.inr ⟨p, hp, hpy, h1, h2⟩

theorem mem_build_import_graph (files : List (String × List String))
    (e : String × String) :
    e ∈ (build_import_graph files).edges ↔
      ∃ p ∈ files, pyEndsWith p.1 ".py" = true ∧
        e.1 = p.1 ∧ e.2 ∈ parse_imports p.2 := by
  rw [build_import_graph, mem_buildGraphAux]
  simp [freshGraph]

theorem addNode_nodes_nodup (g : NxGraph) (n : String) (h : g.nodes.Nodup) :
    (addNode g n).nodes.Nodup := by
  unfold addNode
  split
  · exact h
  · rename_i hn
    simp [List.nodup_append, h, hn]

theorem addEdge_nodes (g : NxGraph) (u v : String) :
    (addEdge g u v).nodes = (addNode (addNode g u) v).nodes := by
  simp only [addEdge]
  split <;> rfl

theorem addEdge_nodes_nodup (g : NxGraph) (u v : String) (h : g.nodes.Nodup) :
    (addEdge g u v).nodes.Nodup := by
  rw [addEdge_nodes]
  exact addNode_nodes_nodup _ _ (addNode_nodes_nodup _ _ h)

theorem addEdge_edges_nodup (g : NxGraph) (u v : String) (h : g.edges.Nodup) :
    (addEdge g u v).edges.Nodup := by
  simp only [addEdge]
  split
  · simpa [addNode_edges] using h
  · rename_i hn
    rw [addNode_edges, addNode_edges] at hn
    simp [addNode_edges, List.nodup_append, h, hn]

theorem addImports_nodup (imps : List String) :
    ∀ (g : NxGraph) (f : String), g.nodes.Nodup → g.edges.Nodup →
      (addImports g f imps).nodes.Nodup ∧ (addImports g f imps).edges.Nodup := by
  induction imps with
  | nil => intro g f h1 h2; exact ⟨h1, h2⟩
  | cons imp rest ih =>
      intro g f h1 h2
      exact ih (addEdge g f imp) f (addEdge_nodes_nodup g f imp h1)
        (addEdge_edges_nodup g f imp h2)

theorem buildGraphAux_nodup (files : List (String × List String)) :
    ∀ g : NxGraph, g.nodes.Nodup → g.edges.Nodup →
      (buildGraphAux files g).nodes.Nodup ∧ (buildGraphAux files g).edges.Nodup := by
  induction files with
  | nil => intro g h1 h2; exact ⟨h1, h2⟩
  | cons f rest ih =>
      intro g h1 h2
      obtain ⟨name, lines⟩ := f
      by_cases hpy : pyEndsWith name ".py" = true
      · simp only [buildGraphAux, hpy, if_pos]
        obtain ⟨hn, he⟩ := addImports_nodup (parse_imports lines) g name h1 h2
        exact ih _ hn he
      · simp only [buildGraphAux, hpy, if_neg, Bool.false_eq_true, not_false_iff]
        exact ih _ h1 h2

theorem addEdge_of_mem (g : NxGraph) (u v : String) (hu : u ∈ g.nodes)
    (hv : v ∈ g.nodes) (he : (u, v) ∈ g.edges) : addEdge g u v = g := by
  have h1 : addNode g u = g := by unfold addNode; simp [hu]
  have h2 : addNode (addNode g u) v = g := by rw [h1]; unfold addNode; simp [hv]
  simp [addEdge, h2, he]

theorem buildGraphAux_no_py (files : List (String × List String))
    (h : ∀ f ∈ files, pyEndsWith f.1 ".py" = false) :
    ∀ g : NxGraph, buildGraphAux files g = g := by
  induction files with
  | nil => intro g; rfl
  | cons f rest ih =>
      intro g
      obtain ⟨name, lines⟩ := f
      have hf := h (name, lines) (List.mem_cons_self _ _)
      simp only at hf
      simp only [buildGraphAux, hf, Bool.false_eq_true, if_false]
      exact ih (fun p hp => h p (List.mem_cons_of_mem _ hp)) g

theorem buildGraphAuxE_ok (files : List (String × Option (List String))) :
    ∀ g : NxGraph, (∀ f ∈ files, pyEndsWith f.1 ".py" = true → f.2 ≠ none) →
      buildGraphAuxE files g =
        Except.ok (buildGraphAux (files.map fun f => (f.1, f.2.getD [])) g) := by
  induction files with
  | nil => intro g _; rfl
  | cons f rest ih =>
      intro g h
      obtain ⟨name, content⟩ := f
      by_cases hpy : pyEndsWith name ".py" = true
      · have hc := h (name, content) (List.mem_cons_self _ _) hpy
        match content with
        | none => exact absurd rfl hc
        | some lines =>
            simp only [buildGraphAuxE, buildGraphAux, hpy, if_pos, List.map_cons,
              Option.getD_some]
            exact ih _ (fun p hp => h p (List.mem_cons_of_mem _ hp))
      · simp only [buildGraphAuxE, buildGraphAux, List.map_cons, hpy,
          Bool.false_eq_true, if_false]
        exact ih _ (fun p hp => h p (List.mem_cons_of_mem _ hp))

theorem buildGraphAuxE_error (files : List (String × Option (List String))) :
    ∀ (g : NxGraph) (name : String),
      (name, (none : Option (List String))) ∈ files →
      pyEndsWith name ".py" = true →
      ∃ p, buildGraphAuxE files g = Except.error p := by
  induction files with
  | nil => intro g name h _; cases h
  | cons f rest ih =>
      intro g name h hpy
      obtain ⟨fname, content⟩ := f
      by_cases hf : pyEndsWith fname ".py" = true
      · match content with
        | none => exact ⟨fname, by simp [buildGraphAuxE, hf]⟩
        | some lines =>
            rcases List.mem_cons.mp h with heq | hmem
            · cases heq
            · simp only [buildGraphAuxE, hf, if_pos]
              exact ih _ name hmem hpy
      · rcases List.mem_cons.mp h with heq | hmem
        · obtain ⟨rfl, -⟩ := Prod.mk.injEq .. ▸ And.intro (congrArg Prod.fst heq) (congrArg Prod.snd heq)
          exact absurd hpy hf
        · simp only [buildGraphAuxE, hf, Bool.false_eq_true, if_false]
          exact ih _ name hmem hpy

theorem firstSome_eq_some {α β : Type} (f : α → Option β) :
    ∀ (l : List α) (b : β), firstSome f l = some b → ∃ a ∈ l, f a = some b := by
  intro l
  induction l with
  | nil => intro b h; cases h
  | cons a rest ih =>
      intro b h
      simp only [firstSome] at h
      cases hf : f a with
      | some c =>
          rw [hf] at h
          cases h
          exact ⟨a, List.mem_cons_self _ _, hf⟩
      | none =>
          rw [hf] at h
          obtain ⟨x, hx, hfx⟩ := ih b h
          exact ⟨x, List.mem_cons_of_mem _ hx, hfx⟩

/-- In a chain of edges ending with `e`, every edge target seen strictly
before `e` is the source of a later edge of the chain. -/
theorem chain_target_is_source (e : String × String) :
    ∀ path : List (String × String),
      List.Chain' (fun a b => a.2 = b.1) (path ++ [e]) →
      ∀ v ∈ path.map Prod.snd, ∃ x ∈ path ++ [e], x.1 = v := by
  intro path
  induction path with
  | nil => intro _ v hv; cases hv
  | cons a rest ih =>
      intro hchain v hv
      have hchain2 : List.Chain' (fun a b => a.2 = b.1) (rest ++ [e]) := by
        rw [List.cons_append] at hchain
        exact hchain.tail
      rcases List.mem_cons.mp hv with hva | hvrest
      · have hne : rest ++ [e] ≠ [] := by simp
        obtain ⟨y, tl, hy⟩ := List.exists_cons_of_ne_nil hne
        have hrel : a.2 = y.1 := by
          rw [List.cons_append, hy] at hchain
          exact (List.chain'_cons.mp hchain).1
        refine ⟨y, ?_, ?_⟩
        · rw [List.cons_append, hy]
          exact List.mem_cons_of_mem _ (List.mem_cons_self _ _)
        · rw [← hrel, hva]
      · obtain ⟨x, hx, hx1⟩ := ih hchain2 v hvrest
        exact ⟨x, by rw [List.cons_append]; exact List.mem_cons_of_mem _ hx, hx1⟩

/-- The first element surviving `dropWhile` fails the predicate. -/
theorem dropWhileHeadFalse {α : Type} (p : α → Bool) :
    ∀ (l : List α) (hd : α) (tl : List α),
      l.dropWhile p = hd :: tl → p hd = false := by
  intro l
  induction l with
  | nil => intro hd tl h; cases h
  | cons a rest ih =>
      intro hd tl h
      by_cases hp : p a = true
      · rw [List.dropWhile_cons_of_pos hp] at h
        exact ih hd tl h
      · have hp2 : p a = false := by
          cases hpa : p a
          · rfl
          · exact absurd hpa hp
        rw [List.dropWhile_cons_of_neg (by simp [hp2])] at h
        cases h
        exact hp2

/-- Closing step of the cycle search: when the walk `path ++ [e]` re-enters a
node `e.2` already on the active path, dropping the prefix before `e.2` leaves
a non-empty closed walk along `E`. -/
theorem closedWalk_of_reentry (E : List (String × String))
    (path : List (String × String)) (root : String) (e : String × String)
    (hchain : List.Chain' (fun a b => a.2 = b.1) path)
    (hmem : ∀ x ∈ path, x ∈ E)
    (hhead : path.head?.map Prod.fst = some root ∨ path = [])
    (hlast : (path ≠ [] ∧ path.getLast?.map Prod.snd = some e.1) ∨
      (path = [] ∧ e.1 = root))
    (heE : e ∈ E)
    (hv : e.2 ∈ root :: path.map Prod.snd)
    (c : List (String × String))
    (hc : c = (path ++ [e]).dropWhile fun f => decide (f.1 ≠ e.2)) :
    c ≠ [] ∧ List.Chain' (fun a b => a.2 = b.1) c ∧
      c.getLast?.map Prod.snd = c.head?.map Prod.fst ∧ ∀ x ∈ c, x ∈ E := by
  have hchainL : List.Chain' (fun a b => a.2 = b.1) (path ++ [e]) := by
    rw [List.chain'_append]
    refine ⟨hchain, List.chain'_singleton e, ?_⟩
    intro x hx y hy
    rcases hlast with ⟨hne, hl⟩ | ⟨rfl, hroot⟩
    · simp only [List.head?_cons, Option.mem_def, Option.some_inj] at hy
      subst hy
      have : path.getLast?.map Prod.snd = some e.1 := hl
      rw [Option.mem_def] at hx
      rw [hx] at this
      simpa using this
    · cases hx
  have hmemL : ∀ x ∈ path ++ [e], x ∈ E := by
    intro x hx
    rcases List.mem_append.mp hx with h1 | h1
    · exact hmem x h1
    · rw [List.mem_singleton.mp h1]
      exact heE
  have hexists : ∃ x ∈ path ++ [e], x.1 = e.2 := by
    rcases List.mem_cons.mp hv with hroot | hsnd
    · rcases hlast with ⟨hne, -⟩ | ⟨rfl, hroot2⟩
      · obtain ⟨y, tl, hy⟩ := List.exists_cons_of_ne_nil hne
        have hy1 : y.1 = root := by
          rw [hy] at hhead
          rcases hhead with hh | hh
          · simpa using hh
          · cases hh
        exact ⟨y, by rw [hy]; exact List.mem_append_left _ (List.mem_cons_self _ _),
          by rw [hy1, hroot]⟩
      · exact ⟨e, by simp, by rw [hroot2, hroot]⟩
    · exact chain_target_is_source e path hchainL e.2 hsnd
  have hcne : c ≠ [] := by
    rw [hc, Ne, List.dropWhile_eq_nil_iff]
    push_neg
    obtain ⟨x, hx, hx1⟩ := hexists
    exact ⟨x, hx, by simp [hx1]⟩
  have hsuffix : c <:+ path ++ [e] := by
    rw [hc]
    exact List.dropWhile_suffix _
  have hchainc : List.Chain' (fun a b => a.2 = b.1) c := hchainL.suffix hsuffix
  have hmemc : ∀ x ∈ c, x ∈ E := fun x hx => hmemL x (hsuffix.sublist.mem hx)
  have hlastc : c.getLast?.map Prod.snd = some e.2 := by
    obtain ⟨t, ht⟩ := hsuffix
    have : (t ++ c).getLast? = c.getLast? := List.getLast?_append_of_ne_nil t hcne
    rw [ht] at this
    rw [← this]
    simp
  have hheadc : c.head?.map Prod.fst = some e.2 := by
    match hc2 : c, hcne with
    | hd :: tl, _ =>
        have hddrop : (path ++ [e]).dropWhile (fun f => decide (f.1 ≠ e.2)) =
            hd :: tl := hc.symm.trans hc2
        have hfalse := dropWhileHeadFalse _ _ hd tl hddrop
        simp only [decide_eq_false_iff_not, Decidable.not_not] at hfalse
        simp [hfalse]
  refine ⟨hcne, hchainc, ?_, hmemc⟩
  rw [hlastc, hheadc]

/-- Soundness of the depth-first cycle search: whatever `dfsCycle` returns is
a non-empty closed walk along `E`.  The invariants tie `path`, the active node
list and the current node `u` together. -/
theorem dfsCycle_sound (E : List (String × String)) :
    ∀ (fuel : Nat) (path : List (String × String)) (root u : String)
      (c : List (String × String)),
      List.Chain' (fun a b => a.2 = b.1) path →
      (∀ x ∈ path, x ∈ E) →
      (path.head?.map Prod.fst = some root ∨ path = []) →
      ((path ≠ [] ∧ path.getLast?.map Prod.snd = some u) ∨ (path = [] ∧ u = root)) →
      dfsCycle E fuel path (root :: path.map Prod.snd) u = some c →
      c ≠ [] ∧ List.Chain' (fun a b => a.2 = b.1) c ∧
        c.getLast?.map Prod.snd = c.head?.map Prod.fst ∧ ∀ x ∈ c, x ∈ E := by
  intro fuel
  induction fuel with
  | zero => intro path root u c _ _ _ _ h; cases h
  | succ fuel ih =>
      intro path root u c hchain hmem hhead hlast hrun
      simp only [dfsCycle] at hrun
      obtain ⟨e, heF, he⟩ := firstSome_eq_some _ _ _ hrun
      have heE : e ∈ E := (List.mem_filter.mp heF).1
      have heu : e.1 = u := by
        have h2 := (List.mem_filter.mp heF).2
        simpa using h2
      by_cases hv : e.2 ∈ root :: path.map Prod.snd
      · rw [if_pos hv] at he
        have hc : c = (path ++ [e]).dropWhile fun f => decide (f.1 ≠ e.2) :=
          (Option.some_inj.mp he).symm
        refine closedWalk_of_reentry E path root e hchain hmem hhead ?_ heE hv c hc
        rcases hlast with ⟨hne, hl⟩ | ⟨hnil, hu⟩
        · exact Or.inl ⟨hne, by rw [heu]; exact hl⟩
        · exact Or.inr ⟨hnil, by rw [heu, hu]⟩
      · rw [if_neg hv] at he
        have hactive : (root :: path.map Prod.snd) ++ [e.2] =
            root :: (path ++ [e]).map Prod.snd := by
          simp
        rw [hactive] at he
        have hchain2 : List.Chain' (fun a b => a.2 = b.1) (path ++ [e]) := by
          rw [List.chain'_append]
          refine ⟨hchain, List.chain'_singleton e, ?_⟩
          intro x hx y hy
          simp only [List.head?_cons, Option.mem_def, Option.some_inj] at hy
          subst hy
          rcases hlast with ⟨hne, hl⟩ | ⟨hnil, hu⟩
          · rw [Option.mem_def] at hx
            rw [hx] at hl
            simp only [Option.map_some', Option.some_inj] at hl
            rw [hl, heu]
          · subst hnil
            cases hx
        have hmem2 : ∀ x ∈ path ++ [e], x ∈ E := by
          intro x hx
          rcases List.mem_append.mp hx with h1 | h1
          · exact hmem x h1
          · rw [List.mem_singleton.mp h1]
            exact heE
        have hhead2 : (path ++ [e]).head?.map Prod.fst = some root ∨
            path ++ [e] = [] := by
          left
          rcases hhead with hh | hnil
          · match hp : path, hh with
            | hd :: tl, hh => simpa using hh
          · subst hnil
            simp only [List.nil_append, List.head?_cons, Option.map_some',
              Option.some_inj]
            rcases hlast with ⟨hne, -⟩ | ⟨-, hu⟩
            · exact absurd rfl hne
            · rw [heu, hu]
        have hlast2 : (path ++ [e] ≠ [] ∧
            (path ++ [e]).getLast?.map Prod.snd = some e.2) ∨
            (path ++ [e] = [] ∧ e.2 = root) := by
          left
          constructor
          · simp
          · rw [List.getLast?_append_of_ne_nil path (by simp)]
            simp
        exact ih (path ++ [e]) root e.2 c hchain2 hmem2 hhead2 hlast2 he

/-- The executable chain check agrees with `List.Chain'`. -/
theorem chainOk_iff : ∀ es : List (String × String),
    chainOk es = true ↔ List.Chain' (fun a b => a.2 = b.1) es
  | [] => by simp [chainOk]
  | [e] => by simp [chainOk]
  | e :: f :: rest => by
      rw [chainOk]
      simp only [Bool.and_eq_true, decide_eq_true_eq, List.chain'_cons]
      exact and_congr Iff.rfl (chainOk_iff (f :: rest))

/-- Soundness of the modelled `nx.find_cycle`: a returned edge list is a
non-empty closed walk along the edges of the graph. -/
theorem findCycle_sound (g : NxGraph) (c : List (String × String))
    (h : findCycle g = some c) : IsClosedWalk g c := by
  obtain ⟨s, hs, hds⟩ := firstSome_eq_some _ _ _ h
  have hres := dfsCycle_sound g.edges (g.edges.length + 1) [] s s c
    (by simp) (by intro x hx; cases hx) (Or.inr rfl) (Or.inr ⟨rfl, rfl⟩)
    (by simpa using hds)
  exact ⟨hres.1, (chainOk_iff c).mpr hres.2.1, hres.2.2.1, hres.2.2.2⟩

theorem mem_addNode_preserve (g : NxGraph) (n m : String) (h : m ∈ g.nodes) :
    m ∈ (addNode g n).nodes := by
  rw [mem_addNode_nodes]
  exact Or.inl h

theorem addEdge_wf (g : NxGraph) (u v : String)
    (h : ∀ e ∈ g.edges, e.1 ∈ g.nodes ∧ e.2 ∈ g.nodes) :
    ∀ e ∈ (addEdge g u v).edges,
      e.1 ∈ (addEdge g u v).nodes ∧ e.2 ∈ (addEdge g u v).nodes := by
  intro e he
  rw [addEdge_nodes]
  rcases (mem_addEdge g u v e).mp he with h1 | rfl
  · obtain ⟨hl, hr⟩ := h e h1
    exact ⟨mem_addNode_preserve _ _ _ (mem_addNode_preserve _ _ _ hl),
      mem_addNode_preserve _ _ _ (mem_addNode_preserve _ _ _ hr)⟩
  · constructor
    · exact mem_addNode_preserve _ _ _ ((mem_addNode_nodes g u u).mpr (Or.inr rfl))
    · exact (mem_addNode_nodes _ v v).mpr (Or.inr rfl)

theorem addImports_wf (imps : List String) :
    ∀ (g : NxGraph) (f : String),
      (∀ e ∈ g.edges, e.1 ∈ g.nodes ∧ e.2 ∈ g.nodes) →
      ∀ e ∈ (addImports g f imps).edges,
        e.1 ∈ (addImports g f imps).nodes ∧ e.2 ∈ (addImports g f imps).nodes := by
  induction imps with
  | nil => intro g f h; exact h
  | cons imp rest ih =>
      intro g f h
      exact ih (addEdge g f imp) f (addEdge_wf g f imp h)

theorem buildGraphAux_wf (files : List (String × List String)) :
    ∀ g : NxGraph,
      (∀ e ∈ g.edges, e.1 ∈ g.nodes ∧ e.2 ∈ g.nodes) →
      ∀ e ∈ (buildGraphAux files g).edges,
        e.1 ∈ (buildGraphAux files g).nodes ∧ e.2 ∈ (buildGraphAux files g).nodes := by
  induction files with
  | nil => intro g h; exact h
  | cons f rest ih =>
      intro g h
      obtain ⟨name, lines⟩ := f
      by_cases hpy : pyEndsWith name ".py" = true
      · simp only [buildGraphAux, hpy, if_pos]
        exact ih _ (addImports_wf (parse_imports lines) g name h)
      · simp only [buildGraphAux, hpy, Bool.false_eq_true, if_false]
        exact ih _ h

theorem build_import_graph_wf (files : List (String × List String)) :
    ∀ e ∈ (build_import_graph files).edges,
      e.1 ∈ (build_import_graph files).nodes ∧
        e.2 ∈ (build_import_graph files).nodes := by
  exact buildGraphAux_wf files freshGraph (by intro e he; cases he)

/-! ## Claims -/

/-- C1: `parse_imports` processes each line after trimming whitespace — an
`"import "`-prefixed line with at least 2 whitespace tokens contributes its
second token, a `"from "`-prefixed line with at least 4 tokens whose third
token equals `"import"` contributes `"<token2>.<token4>"`, and every other
line contributes nothing — so the result is the ordered concatenation of the
per-line contributions with duplicates preserved; in particular a file with
the lines `import os` and `from a import b` yields exactly
`["os", "a.b"]` in that order. -/
theorem c1_import_extraction :
    (∀ lines : List String,
      parse_imports lines = (lines.map specExtractLine).flatten) ∧
    parse_imports ["import os", "from a import b"] = ["os", "a.b"] := by
  constructor
  · intro lines
    rw [parse_imports, parseImportsAux_eq]
    simp
  · decide

/-- C2: a node is in the critical-node list iff it is a graph node of
in-degree above the fixed threshold 1; the list follows node insertion order;
a node whose incoming edges come from exactly two distinct files has in-degree
2 and appears in the list, and a node imported by exactly one file does
not. -/
theorem c2_critical_nodes (files : List (String × List String)) (n a b : String) :
    (n ∈ identify_critical_nodes (build_import_graph files) ↔
      n ∈ (build_import_graph files).nodes ∧
        1 < inDeg (build_import_graph files) n) ∧
    List.Sublist (identify_critical_nodes (build_import_graph files))
      (build_import_graph files).nodes ∧
    ((build_import_graph files).edges.filter (fun e => decide (e.2 = n)) =
        [(a, n), (b, n)] → a ≠ b →
      inDeg (build_import_graph files) n = 2 ∧
        n ∈ identify_critical_nodes (build_import_graph files)) ∧
    ((build_import_graph files).edges.filter (fun e => decide (e.2 = n)) =
        [(a, n)] →
      n ∉ identify_critical_nodes (build_import_graph files)) := by
  refine ⟨?_, ?_, ?_, ?_⟩
  · simp [identify_critical_nodes, List.mem_filter]
  · exact List.filter_sublist _
  · intro hf hab
    have hdeg : inDeg (build_import_graph files) n = 2 := by
      rw [inDeg, hf]
      rfl
    refine ⟨hdeg, ?_⟩
    have han : (a, n) ∈ (build_import_graph files).edges := by
      have : (a, n) ∈ (build_import_graph files).edges.filter
          (fun e => decide (e.2 = n)) := by
        rw [hf]; exact List.mem_cons_self _ _
      exact (List.mem_filter.mp this).1
    have hn : n ∈ (build_import_graph files).nodes :=
      (build_import_graph_wf files (a, n) han).2
    simp [identify_critical_nodes, List.mem_filter, hn, hdeg]
  · intro hf hmem
    have hdeg : inDeg (build_import_graph files) n = 1 := by
      rw [inDeg, hf]
      rfl
    have := (List.mem_filter.mp hmem).2
    rw [hdeg] at this
    simp at this

theorem c2_critical_nodes_witness :
    "os" ∈ identify_critical_nodes (build_import_graph
      [("a.py", ["import os"]), ("b.py", ["import os"]),
       ("k.py", ["import one"])]) ∧
    inDeg (build_import_graph
      [("a.py", ["import os"]), ("b.py", ["import os"]),
       ("k.py", ["import one"])]) "os" = 2 ∧
    "one" ∉ identify_critical_nodes (build_import_graph
      [("a.py", ["import os"]), ("b.py", ["import os"]),
       ("k.py", ["import one"])]) := by
  have h := c2_critical_nodes
    [("a.py", ["import os"]), ("b.py", ["import os"]), ("k.py", ["import one"])]
    "os" "a.py" "b.py"
  have h2 := c2_critical_nodes
    [("a.py", ["import os"]), ("b.py", ["import os"]), ("k.py", ["import one"])]
    "one" "k.py" "k.py"
  obtain ⟨hdeg, hmem⟩ := h.2.2.1 (by decide) (by decide)
  exact ⟨hmem, hdeg, h2.2.2.2 (by decide)⟩

/-- C3: for the graph whose edges are exactly A→B, B→C, C→A, the analysis
reports exactly one cycle — a single closed walk — whose edge set covers all
three edges. -/
theorem c3_three_edge_cycle :
    identify_circular_dependencies cycleGraph =
      [("A", "B"), ("B", "C"), ("C", "A")] ∧
    (∀ e ∈ cycleGraph.edges, e ∈ identify_circular_dependencies cycleGraph) ∧
    IsClosedWalk cycleGraph (identify_circular_dependencies cycleGraph) := by
  refine ⟨by decide, by decide, by decide⟩

/-- C4: cycle detection returns at most one cycle's edge set — the result is
either empty or a single closed walk, never an enumeration of several
cycles — and on a graph with no cycle it returns the empty list as a normal
result. -/
theorem c4_no_cycle_guarded (g : NxGraph) :
    (identify_circular_dependencies g = [] ∨
      IsClosedWalk g (identify_circular_dependencies g)) ∧
    ((¬ ∃ es, IsClosedWalk g es) → identify_circular_dependencies g = []) := by
  constructor
  · cases h : findCycle g with
    | none => left; simp [identify_circular_dependencies, h]
    | some c =>
        right
        have hs := findCycle_sound g c h
        simpa [identify_circular_dependencies, h] using hs
  · intro hn
    cases h : findCycle g with
    | none => simp [identify_circular_dependencies, h]
    | some c => exact absurd ⟨c, findCycle_sound g c h⟩ hn

theorem c4_no_cycle_guarded_witness :
    identify_circular_dependencies freshGraph = [] := by
  apply (c4_no_cycle_guarded freshGraph).2
  rintro ⟨es, hne, -, -, hmem⟩
  match es, hne with
  | e :: tl, _ =>
      have : e ∈ freshGraph.edges := hmem e (List.mem_cons_self _ _)
      cases this

/-- C5: for a walk yielding no file whose name ends in `".py"`, the built
graph has no nodes and no edges, and the insight summary reports both counts
as 0 together with the line `"No circular dependencies found."`. -/
theorem c5_empty_directory (files : List (String × List String))
    (h : ∀ f ∈ files, pyEndsWith f.1 ".py" = false) :
    (build_import_graph files).nodes = [] ∧
    (build_import_graph files).edges = [] ∧
    draw_insights (build_import_graph files) =
      ["Insights about the codebase:",
       "Total number of nodes (files and imports): 0",
       "Total number of edges (dependencies): 0",
       "Number of critical nodes (frequently imported): 0",
       "Critical nodes: ",
       "No circular dependencies found."] := by
  have hg : build_import_graph files = freshGraph :=
    buildGraphAux_no_py files h freshGraph
  rw [hg]
  exact ⟨rfl, rfl, by decide⟩

theorem c5_empty_directory_witness :
    (build_import_graph [("README.md", ["import os"])]).nodes = [] ∧
    draw_insights (build_import_graph [("README.md", ["import os"])]) =
      ["Insights about the codebase:",
       "Total number of nodes (files and imports): 0",
       "Total number of edges (dependencies): 0",
       "Number of critical nodes (frequently imported): 0",
       "Critical nodes: ",
       "No circular dependencies found."] := by
  have h := c5_empty_directory [("README.md", ["import os"])] (by decide)
  exact ⟨h.1, h.2.2⟩

/-- C6: graph construction is deterministic on the same walked contents, the
node and edge lists of a built graph contain no duplicates (a simple directed
graph without multiplicity), and inserting an edge that is already present —
a repeated import of the same name from the same file — leaves the graph
unchanged. -/
theorem c6_idempotent_build (files : List (String × List String)) (g : NxGraph)
    (u v : String) :
    build_import_graph files = build_import_graph files ∧
    (build_import_graph files).nodes.Nodup ∧
    (build_import_graph files).edges.Nodup ∧
    (u ∈ g.nodes → v ∈ g.nodes → (u, v) ∈ g.edges → addEdge g u v = g) := by
  obtain ⟨hn, he⟩ := buildGraphAux_nodup files freshGraph List.nodup_nil
    List.nodup_nil
  exact ⟨rfl, hn, he, fun hu hv hev => addEdge_of_mem g u v hu hv hev⟩

theorem c6_idempotent_build_witness :
    addEdge ⟨["a.py", "os"], [("a.py", "os")]⟩ "a.py" "os" =
      ⟨["a.py", "os"], [("a.py", "os")]⟩ ∧
    (build_import_graph [("a.py", ["import os", "import os"])]).edges.Nodup := by
  have h := c6_idempotent_build [("a.py", ["import os", "import os"])]
    ⟨["a.py", "os"], [("a.py", "os")]⟩ "a.py" "os"
  exact ⟨h.2.2.2 (by decide) (by decide) (by decide), h.2.2.1⟩

/-- C7: a file containing the single line `import os, sys` yields exactly the
one malformed token `"os,"` — the comma list is not split. -/
theorem c7_comma_form :
    parse_imports ["import os, sys"] = ["os,"] := by
  decide

/-- C8: an unreadable matched file is caught nowhere in the extraction or
graph-build path: the first read failure aborts the whole build with an error
and no partial graph is produced, while a walk with no failing `.py` file
builds the full graph. -/
theorem c8_read_failure_aborts (files : List (String × Option (List String)))
    (name : String) :
    ((name, (none : Option (List String))) ∈ files →
      pyEndsWith name ".py" = true →
      ∃ p, buildImportGraphE files = Except.error p) ∧
    ((∀ f ∈ files, pyEndsWith f.1 ".py" = true → f.2 ≠ none) →
      buildImportGraphE files =
        Except.ok (build_import_graph (files.map fun f => (f.1, f.2.getD [])))) := by
  constructor
  · intro hmem hpy
    exact buildGraphAuxE_error files freshGraph name hmem hpy
  · intro h
    exact buildGraphAuxE_ok files freshGraph h

theorem c8_read_failure_aborts_witness :
    (∃ p, buildImportGraphE
      [("a.py", some ["import os"]), ("bad.py", (none : Option (List String))),
       ("c.py", some ["import sys"])] = Except.error p) ∧
    buildImportGraphE [("a.py", some ["import os"])] =
      Except.ok (build_import_graph [("a.py", ["import os"])]) := by
  have h := c8_read_failure_aborts
    [("a.py", some ["import os"]), ("bad.py", (none : Option (List String))),
     ("c.py", some ["import sys"])] "bad.py"
  have h2 := c8_read_failure_aborts [("a.py", some ["import os"])] "bad.py"
  exact ⟨h.1 (by simp) (by decide), h2.2 (by simp)⟩

/-- C9: every edge of a built graph has a source whose name ends in `".py"`;
a node ending in `".py"` can only be an edge target when it is itself an
extracted import name of some file, and the graph can only contain a cycle
when some extracted import name ends in `".py"`. -/
theorem c9_py_sources (files : List (String × List String)) :
    (∀ e ∈ (build_import_graph files).edges, pyEndsWith e.1 ".py" = true) ∧
    (∀ e ∈ (build_import_graph files).edges, pyEndsWith e.2 ".py" = true →
      ∃ p ∈ files, pyEndsWith p.1 ".py" = true ∧ e.2 ∈ parse_imports p.2) ∧
    ((∃ es, IsClosedWalk (build_import_graph files) es) →
      ∃ p ∈ files, ∃ imp ∈ parse_imports p.2,
        pyEndsWith p.1 ".py" = true ∧ pyEndsWith imp ".py" = true) := by
  have hchar := mem_build_import_graph files
  refine ⟨?_, ?_, ?_⟩
  · intro e he
    obtain ⟨p, hp, hpy, h1, h2⟩ := (hchar e).mp he
    rw [h1]
    exact hpy
  · intro e he hpy2
    obtain ⟨p, hp, hpy, h1, h2⟩ := (hchar e).mp he
    exact ⟨p, hp, hpy, h2⟩
  · rintro ⟨es, hne, hchain, hclose, hmem⟩
    have hl : es.getLast? = some (es.getLast hne) := List.getLast?_eq_getLast es hne
    have hh : es.head? = some (es.head hne) := List.head?_eq_head hne
    rw [hl, hh] at hclose
    simp only [Option.map_some', Option.some_inj] at hclose
    have hlastmem : es.getLast hne ∈ (build_import_graph files).edges :=
      hmem _ (List.getLast_mem hne)
    have hheadmem : es.head hne ∈ (build_import_graph files).edges :=
      hmem _ (List.head_mem hne)
    obtain ⟨p, hp, hpy, h1, h2⟩ := (hchar (es.getLast hne)).mp hlastmem
    obtain ⟨q, hq, hqy, h3, h4⟩ := (hchar (es.head hne)).mp hheadmem
    refine ⟨p, hp, (es.getLast hne).2, h2, hpy, ?_⟩
    rw [hclose, h3]
    exact hqy

theorem c9_py_sources_witness :
    pyEndsWith "a.py" ".py" = true ∧
    (∃ p ∈ [("a.py", ["import b.py"]), ("b.py", ["import a.py"])],
      ∃ imp ∈ parse_imports p.2,
        pyEndsWith p.1 ".py" = true ∧ pyEndsWith imp ".py" = true) := by
  have h := c9_py_sources [("a.py", ["import b.py"]), ("b.py", ["import a.py"])]
  refine ⟨?_, ?_⟩
  · have := h.1 ("a.py", "b.py") (by decide)
    simpa using this
  · exact h.2.2 ⟨[("a.py", "b.py"), ("b.py", "a.py")], by decide⟩

/-- C10: the summary line `"Number of circular dependencies"` reports the
number of edges of the single discovered cycle — the same number as the
entries of the printed edge list on the next line — not the number of cycles;
for the three-edge cycle A→B, B→C, C→A it prints 3. -/
theorem c10_count_is_edge_count (g : NxGraph) :
    (identify_circular_dependencies g ≠ [] →
      ("Number of circular dependencies: " ++
          toString (identify_circular_dependencies g).length) ∈ draw_insights g ∧
      ("Circular dependencies: " ++
          joinSep ", " ((identify_circular_dependencies g).map
            fun e => e.1 ++ " -> " ++ e.2)) ∈ draw_insights g ∧
      ((identify_circular_dependencies g).map
          fun e => e.1 ++ " -> " ++ e.2).length =
        (identify_circular_dependencies g).length) ∧
    (identify_circular_dependencies cycleGraph).length = 3 ∧
    "Number of circular dependencies: 3" ∈ draw_insights cycleGraph ∧
    "Circular dependencies: A -> B, B -> C, C -> A" ∈ draw_insights cycleGraph := by
  refine ⟨?_, by decide, by decide, by decide⟩
  intro h
  refine ⟨?_, ?_, by simp⟩
  · simp [draw_insights, h]
  · simp [draw_insights, h]

theorem c10_count_is_edge_count_witness :
    "Number of circular dependencies: 3" ∈ draw_insights cycleGraph ∧
    ("Circular dependencies: " ++
        joinSep ", " ((identify_circular_dependencies cycleGraph).map
          fun e => e.1 ++ " -> " ++ e.2)) ∈ draw_insights cycleGraph := by
  have h := c10_count_is_edge_count cycleGraph
  exact ⟨h.2.2.1, (h.1 (by decide)).2.1⟩
